import Mathlib

/-!
Verification of the Steam cost calculator (calc_cost.py and format_cost.py).

A Python string is modeled as a list of characters, a Python `Decimal` as a
rational number (the script sets 12 significant digits of working precision,
which is exact on all quantities handled here), and `None`-returning code as
`Option`.  Regular-expression scans are modeled by hand-rolled scanners that
follow the matching behaviour of the concrete patterns used in the scripts.
-/

set_option maxRecDepth 20000
set_option allowUnsafeReducibility true
attribute [semireducible] Rat.add Rat.mul Rat.sub Rat.inv Rat.div

/-- The character class matched by the regex `\s` and stripped by
`str.strip()` for the inputs at hand (ASCII whitespace plus the common
Unicode space characters, including the ideographic space). -/
def isPySpace (c : Char) : Bool :=
  c = ' ' || c = '\t' || c = '\n' || c = '\r' || c = '\x0b' || c = '\x0c' ||
  c = '\x1c' || c = '\x1d' || c = '\x1e' || c = '\x1f' || c = '\x85' ||
  c = '\xa0' || c.toNat = 0x1680 ||
  (0x2000 <= c.toNat && c.toNat <= 0x200a) ||
  c.toNat = 0x2028 || c.toNat = 0x2029 || c.toNat = 0x202f ||
  c.toNat = 0x205f || c.toNat = 0x3000

/-- `str.lstrip()`. -/
def lstrip (l : List Char) : List Char := l.dropWhile isPySpace

/-- `str.rstrip()`, written recursively. -/
def rstrip (l : List Char) : List Char :=
  match l with
  | [] => []
  | c :: cs =>
    let r := rstrip cs
    if r = [] then (if isPySpace c then [] else [c]) else c :: r

/-- `str.strip()`. -/
def strip (l : List Char) : List Char := lstrip (rstrip l)

/-- `str.rstrip("\n")`: remove trailing newline characters only. -/
def rstripNl (l : List Char) : List Char :=
  match l with
  | [] => []
  | c :: cs =>
    let r := rstripNl cs
    if r = [] then (if c = '\n' then [] else [c]) else c :: r

/-- A character of the regex body class `[\d,.]`. -/
def isBodyChar (c : Char) : Bool := c.isDigit || c = ',' || c = '.'

/-- One of the two accepted currency glyphs (half-width `¥`, full-width `￥`). -/
def isGlyph (c : Char) : Bool := c = '¥' || c = '￥'

/-- Match `[¥￥]\s*([\d,.]+)` at the head of the input: a currency glyph,
optional whitespace, then a non-empty greedy run of body characters.
Returns the captured body and the rest of the input. -/
def matchGlyphBody (cs : List Char) : Option (List Char × List Char) :=
  match cs with
  | [] => none
  | c :: rest =>
    if isGlyph c then
      let t := rest.dropWhile isPySpace
      let g := t.takeWhile isBodyChar
      if g = [] then none else some (g, t.dropWhile isBodyChar)
    else none

/-- Match `[+-]?\s*[¥￥]\s*([\d,.]+)` at the head of the input
(the sign-agnostic amount token of `extract_amounts`). -/
def tryMatchAmtAt (cs : List Char) : Option (List Char × List Char) :=
  match cs with
  | [] => none
  | c :: rest =>
    if c = '+' || c = '-' then matchGlyphBody (rest.dropWhile isPySpace)
    else matchGlyphBody (cs.dropWhile isPySpace)

/-- Match `\+\s*[¥￥]\s*([\d,.]+)` at the head of the input
(the positive-sign token scan of the marketplace-income loop). -/
def tryMatchPlusAt (cs : List Char) : Option (List Char × List Char) :=
  match cs with
  | [] => none
  | c :: rest =>
    if c = '+' then matchGlyphBody (rest.dropWhile isPySpace) else none

/-- Match `[+-]\s*[¥￥]\s*([\d,.]+)` at the head of the input: a currency
token carrying an explicit sign, with the whitespace the token grammar of
the specification allows between sign and glyph. -/
def tryMatchSignedAt (cs : List Char) : Option (List Char × List Char) :=
  match cs with
  | [] => none
  | c :: rest =>
    if c = '+' || c = '-' then matchGlyphBody (rest.dropWhile isPySpace)
    else none

/-- The `re.finditer` loop: at each position try the matcher; on success
emit the captured group and continue after the match, otherwise advance one
character.  The fuel argument starts at the length of the input, which
suffices because every step consumes at least one character
(see `scan_go_fuel_irrel` and `finditer_amt_eq_step`). -/
def scan_go (m : List Char → Option (List Char × List Char)) :
    Nat → List Char → List (List Char)
  | 0, _ => []
  | fuel + 1, cs =>
    match m cs with
    | some (g, rest) => g :: scan_go m fuel rest
    | none =>
      match cs with
      | [] => []
      | _ :: rest => scan_go m fuel rest

/-- All captured groups of `re.finditer(r"[+-]?\s*[¥￥]\s*([\d,.]+)", text)`. -/
def finditer_amt (cs : List Char) : List (List Char) :=
  scan_go tryMatchAmtAt cs.length cs

/-- All captured groups of `re.finditer(r"\+\s*[¥￥]\s*([\d,.]+)", line)`. -/
def finditer_plus (cs : List Char) : List (List Char) :=
  scan_go tryMatchPlusAt cs.length cs

/-- All captured groups of a scan for explicitly signed currency tokens
(`[+-]\s*[¥￥]\s*([\d,.]+)`), used to state the specification's notion of a
line "carrying an explicitly signed currency token". -/
def finditer_signed (cs : List Char) : List (List Char) :=
  scan_go tryMatchSignedAt cs.length cs

/-- The value of a run of decimal digits. -/
def digitsToNat (l : List Char) : Nat :=
  l.foldl (fun n c => 10 * n + (c.toNat - 48)) 0

/-- `Decimal(m.group(1).replace(",", ""))` wrapped in try/except: remove the
grouping commas, then parse the remaining digits-and-dots string as an exact
decimal; `none` when the body is not a valid decimal literal (more than one
dot, or no digit at all). -/
def parse_amount (g : List Char) : Option ℚ :=
  let h := g.filter (fun c => c ≠ ',')
  if h.count '.' ≤ 1 && h.any Char.isDigit then
    let ip := h.takeWhile (fun c => c ≠ '.')
    let fp := (h.dropWhile (fun c => c ≠ '.')).drop 1
    some ((digitsToNat ip : ℚ) + (digitsToNat fp : ℚ) / (10 : ℚ) ^ fp.length)
  else none

/-- `extract_amounts` from calc_cost.py: scan a line for all amount tokens,
appending each successfully parsed magnitude to the result list and silently
skipping bodies that fail to parse. -/
def extract_amounts (text : List Char) : List ℚ :=
  (finditer_amt text).foldl
    (fun acc g =>
      match parse_amount g with
      | some v => acc ++ [v]
      | none => acc) []

/-- Python's substring containment `needle in hay`. -/
def isSubstr (needle : List Char) : List Char → Bool
  | [] => needle.isPrefixOf []
  | c :: t => needle.isPrefixOf (c :: t) || isSubstr needle t

/-- Consume exactly `n` digits at the head of the input. -/
def takeDigitsExact : Nat → List Char → Option (List Char)
  | 0, cs => some cs
  | _ + 1, [] => none
  | n + 1, c :: cs => if c.isDigit then takeDigitsExact n cs else none

/-- Consume `\s*` followed by the literal delimiter character. -/
def afterNumSep (delim : Char) (cs : List Char) : Option (List Char) :=
  match cs.dropWhile isPySpace with
  | [] => none
  | c :: rest => if c = delim then some rest else none

/-- Consume `\s*\d{1,2}\s*` followed by the literal delimiter, trying the
greedy two-digit alternative first, as the backtracking regex does. -/
def num12 (delim : Char) (cs0 : List Char) : Option (List Char) :=
  match cs0.dropWhile isPySpace with
  | [] => none
  | c1 :: rest1 =>
    if c1.isDigit then
      match rest1 with
      | [] => afterNumSep delim rest1
      | c2 :: rest2 =>
        if c2.isDigit then
          match afterNumSep delim rest2 with
          | some r => some r
          | none => afterNumSep delim rest1
        else afterNumSep delim rest1
    else none

/-- `is_date_line` (shared verbatim by calc_cost.py and format_cost.py):
whether the stripped line starts with the date-marker pattern
`^\d{4}\s*年\s*\d{1,2}\s*月\s*\d{1,2}\s*日`. -/
def is_date_line (text : List Char) : Bool :=
  let t := strip text
  match takeDigitsExact 4 t with
  | none => false
  | some r1 =>
    match afterNumSep '年' r1 with
    | none => false
    | some r2 =>
      match num12 '月' r2 with
      | none => false
      | some r3 => (num12 '日' r3).isSome

/-- The accumulator loop of `split_blocks`: `current` is the open block
buffer; a date line closes and emits the buffer and opens a new one; any
other line is appended to the buffer (which is opened implicitly at the
start of the document). -/
def split_blocks_go : List (List Char) → List (List Char) → List (List (List Char))
  | [], current => if current = [] then [] else [current]
  | l :: ls, current =>
    if is_date_line l then
      (if current = [] then [] else [current]) ++ split_blocks_go ls [l]
    else
      if current = [] then split_blocks_go ls [l]
      else split_blocks_go ls (current ++ [l])

/-- `split_blocks` from calc_cost.py. -/
def split_blocks (lines : List (List Char)) : List (List (List Char)) :=
  split_blocks_go lines []

/-- The marketplace-trade marker literal. -/
def kwMarket : List Char := ("Steam 社区市场").data

/-- The funds / balance-movement marker literal. -/
def kwFunds : List Char := ("资金").data

/-- The literal substring `+¥` (half-width glyph). -/
def plusHalf : List Char := ("+¥").data

/-- The literal substring `+￥` (full-width glyph). -/
def plusFull : List Char := ("+￥").data

/-- The literal substring `-¥` (half-width glyph). -/
def minusHalf : List Char := ("-¥").data

/-- The literal substring `-￥` (full-width glyph). -/
def minusFull : List Char := ("-￥").data

/-- `is_market_block` from calc_cost.py: some line contains the marketplace
marker, some line contains the funds marker, and some line contains the
literal substring `+¥` or `+￥`. -/
def is_market_block (block : List (List Char)) : Bool :=
  (block.any (fun l => isSubstr kwMarket l)) &&
  (block.any (fun l => isSubstr kwFunds l)) &&
  (block.any (fun l => isSubstr plusHalf l || isSubstr plusFull l))

/-- `EXTERNAL_METHOD_KEYWORDS` from calc_cost.py. -/
def EXTERNAL_METHOD_KEYWORDS : List (List Char) :=
  [("支付宝").data, ("微信支付").data, ("微信").data, ("银行卡").data,
   ("银联").data, ("China UnionPay").data, ("Visa").data,
   ("MasterCard").data, ("American Express").data]

/-- Whether a single line contains one of the external payment keywords. -/
def line_has_kw (l : List Char) : Bool :=
  EXTERNAL_METHOD_KEYWORDS.any (fun k => isSubstr k l)

/-- `has_external_method` from calc_cost.py. -/
def has_external_method (block : List (List Char)) : Bool :=
  block.any line_has_kw

/-- The half-width currency glyph `¥` as a one-character string, used by
the checks `"¥" in line` of external steps 1 and 2. -/
def halfGlyphStr : List Char := ("¥").data

/-- The balance/wallet/change marker words excluded by external step 2. -/
def balanceWords : List (List Char) :=
  [("钱包").data, ("余额").data, ("变更").data]

/-- Whether a line contains one of the four sign-adjacent-to-glyph
substrings `+¥`, `+￥`, `-¥`, `-￥` tested by external steps 2 and 3. -/
def has_signed_adjacent (l : List Char) : Bool :=
  isSubstr plusHalf l || isSubstr plusFull l ||
  isSubstr minusHalf l || isSubstr minusFull l

/-- The marketplace-income accumulation loop of `calc_external_for_block`:
for every line, add every successfully parsed positive-sign token. -/
def market_income_of (block : List (List Char)) : ℚ :=
  block.foldl
    (fun acc l =>
      (finditer_plus l).foldl
        (fun a g =>
          match parse_amount g with
          | some v => a + v
          | none => a) acc) 0

/-- External step 1 of `calc_external_for_block`: sum the extracted amounts
of every line that contains a payment-method keyword and the half-width
glyph. -/
def external_step1 (block : List (List Char)) : ℚ :=
  block.foldl
    (fun acc l =>
      if line_has_kw l && isSubstr halfGlyphStr l then
        let amts := extract_amounts l
        if amts = [] then acc else acc + amts.sum
      else acc) 0

/-- External step 2 of `calc_external_for_block`: sum the extracted amounts
of every line that contains the half-width glyph, mentions none of the
balance words, and contains none of the four signed substrings. -/
def external_step2 (block : List (List Char)) : ℚ :=
  block.foldl
    (fun acc l =>
      if isSubstr halfGlyphStr l = false then acc
      else if balanceWords.any (fun w => isSubstr w l) then acc
      else if has_signed_adjacent l then acc
      else
        let amts := extract_amounts l
        if amts = [] then acc else acc + amts.sum) 0

/-- External step 3 of `calc_external_for_block`: over the lines containing
one of the four signed substrings and at least one extractable amount, the
best (largest) first amount, if any line qualifies. -/
def external_step3_best (block : List (List Char)) : Option ℚ :=
  block.foldl
    (fun best l =>
      if has_signed_adjacent l = false then best
      else
        match extract_amounts l with
        | [] => best
        | first :: _ =>
          match best with
          | none => some first
          | some b => if first > b then some first else some b) none

/-- `calc_external_for_block` from calc_cost.py: the pair
(external real spend, marketplace income) of one block. -/
def calc_external_for_block (block : List (List Char)) : ℚ × ℚ :=
  let market_income : ℚ := if is_market_block block then market_income_of block else 0
  let external : ℚ :=
    if has_external_method block then
      let s1 := external_step1 block
      if s1 = 0 then
        let s2 := external_step2 block
        if s2 = 0 then
          match external_step3_best block with
          | none => s1 + s2
          | some best => s1 + s2 + best
        else s1 + s2
      else s1
    else 0
  (external, market_income)

/-- `detect_current_wallet_balance` from calc_cost.py: the third amount of
the first line containing at least three extractable amounts. -/
def detect_current_wallet_balance : List (List Char) → Option ℚ
  | [] => none
  | l :: ls =>
    let amts := extract_amounts l
    if 3 ≤ amts.length then amts[2]? else detect_current_wallet_balance ls

/-- The running-totals fold of `main` in calc_cost.py. -/
def aggregate_totals (blocks : List (List (List Char))) : ℚ × ℚ :=
  blocks.foldl
    (fun acc b =>
      (acc.1 + (calc_external_for_block b).1, acc.2 + (calc_external_for_block b).2))
    (0, 0)

/-- Python's `text.split("\t")`. -/
def splitTabs (cs : List Char) : List (List Char) :=
  match cs with
  | [] => [[]]
  | c :: rest =>
    match splitTabs rest with
    | [] => [[c]]
    | p :: ps => if c = '\t' then [] :: p :: ps else (c :: p) :: ps

/-- Python's `sep.join(parts)`. -/
def joinSep (sep : List Char) : List (List Char) → List Char
  | [] => []
  | [p] => p
  | p :: ps => p ++ sep ++ joinSep sep ps

/-- The category keyword set of `prettify_line` in format_cost.py. -/
def keywords : List (List Char) :=
  [("市场交易").data, ("购买").data, ("游戏内购买").data,
   ("资金").data, ("钱包").data, ("支付宝").data]

/-- `prettify_line` from format_cost.py: blank lines become empty; lines
containing a tab are split on tabs, the segments stripped, empty segments
dropped and the rest rejoined with a visible separator; lines equal (after
stripping) to a category keyword get a list marker; all other lines are
right-stripped. -/
def prettify_line (text : List Char) : List Char :=
  let stripped := strip text
  if stripped = [] then []
  else if text.contains '\t' then
    joinSep ((" | ").data) (((splitTabs text).map strip).filter (fun p => p ≠ []))
  else if keywords.contains stripped then ("- ").data ++ stripped
  else rstrip text

/-- The line loop of `format_cost_file` in format_cost.py (the pure part:
file reading and writing are external).  The boolean records whether any
date record has been emitted yet, so that a visual break (blank line,
horizontal rule, blank line) precedes every date-marker line except the
first. -/
def format_go : List (List Char) → Bool → List (List Char)
  | [], _ => []
  | raw :: rest, written =>
    let line := rstripNl raw
    let stripped := strip line
    if is_date_line stripped then
      (if written then [[], ("---").data, []] else []) ++
        (prettify_line line :: format_go rest true)
    else if stripped = [] then [] :: format_go rest written
    else prettify_line line :: format_go rest written

/-- `format_cost_file` from format_cost.py as a line-stream transformation. -/
def format_lines (lines : List (List Char)) : List (List Char) :=
  format_go lines false

/-- Round a rational to an integer with ties to even, the rounding mode
(`ROUND_HALF_EVEN`) Python's `Decimal.quantize` uses by default. -/
def roundHalfEven (q : ℚ) : ℤ :=
  let f := q.floor
  let r := q - (f : ℚ)
  if r < 1 / 2 then f
  else if 1 / 2 < r then f + 1
  else if f % 2 = 0 then f else f + 1

/-- `x.quantize(Decimal("0.01"))`: round to two decimal places, half to
even. -/
def quantize2 (q : ℚ) : ℚ := ((roundHalfEven (q * 100) : ℚ)) / 100

/-- The report derivation of `main` in calc_cost.py: from the two running
totals, the discounted marketplace cost basis, the rounded direct external
total, and the estimated total cost. -/
def derive_report (total_external total_market_income : ℚ) : ℚ × ℚ × ℚ :=
  let cost_from_market := quantize2 (total_market_income * (9 / 10))
  let direct_external := quantize2 total_external
  let total_cost := quantize2 (direct_external + cost_from_market)
  (cost_from_market, direct_external, total_cost)

/-- The whole numeric pipeline of `main` in calc_cost.py: split the document
into blocks, fold the per-block contributions, derive the report figures. -/
def main_report (lines : List (List Char)) : ℚ × ℚ × ℚ :=
  let t := aggregate_totals (split_blocks lines)
  derive_report t.1 t.2

/-- The sign-agnostic positive-token magnitudes of one line
(`finditer_plus` groups that parse), used to state the specification's
marketplace-income sum. -/
def pos_amounts (line : List Char) : List ℚ :=
  (finditer_plus line).filterMap parse_amount

/-- Whether a line contains a currency glyph of either width, the reading
of "contains a currency glyph (either accepted glyph)" in the claim about
the external fallback. -/
def has_any_glyph (l : List Char) : Bool := l.any isGlyph

/-- Whether a line carries an explicitly signed currency token in the sense
of the specification's token grammar (sign, optional whitespace, glyph,
optional whitespace, body). -/
def has_signed_token (l : List Char) : Bool := finditer_signed l ≠ []

/-- Modelled from the words of the claim about the external fallback
(claim-side definition, to be compared with `calc_external_for_block`):
step 1 sums all extracted amounts over lines containing a payment-method
keyword and a currency glyph of either width; if zero, step 2 sums all
extracted amounts over glyph-bearing lines that mention no balance word and
carry no explicitly signed currency token; if zero again, step 3 takes the
maximum over signed-token lines of the line's first extracted amount, zero
when no line qualifies; non-external blocks contribute zero. -/
def calc_external_claimC1 (block : List (List Char)) : ℚ :=
  if has_external_method block then
    let s1 := (((block.filter (fun l => line_has_kw l && has_any_glyph l)).map
      (fun l => (extract_amounts l).sum))).sum
    if s1 ≠ 0 then s1
    else
      let s2 := (((block.filter (fun l =>
        has_any_glyph l && !(balanceWords.any (fun w => isSubstr w l)) &&
        !(has_signed_token l))).map (fun l => (extract_amounts l).sum))).sum
      if s2 ≠ 0 then s2
      else
        (((block.filter has_signed_token).filterMap
          (fun l => (extract_amounts l).head?)).foldl max 0)
  else 0

/-- The amended step 1: the glyph test is for the half-width glyph only. -/
def external_step1_spec (block : List (List Char)) : ℚ :=
  ((block.filter (fun l => line_has_kw l && isSubstr halfGlyphStr l)).map
    (fun l => (extract_amounts l).sum)).sum

/-- The amended step 2: half-width glyph test; the signed-token exclusion
is the literal sign-adjacent-to-glyph substring test. -/
def external_step2_spec (block : List (List Char)) : ℚ :=
  ((block.filter (fun l =>
    isSubstr halfGlyphStr l && !(balanceWords.any (fun w => isSubstr w l)) &&
    !(has_signed_adjacent l))).map (fun l => (extract_amounts l).sum)).sum

/-- The amended step 3: maximum first extracted amount over the lines
containing one of the four sign-adjacent substrings, zero if none. -/
def external_step3_spec (block : List (List Char)) : ℚ :=
  ((block.filter has_signed_adjacent).filterMap
    (fun l => (extract_amounts l).head?)).foldl max 0

/-- The amended external fallback: as the claim, but with the half-width
glyph test in steps 1 and 2 and the sign-adjacent substring test in steps 2
and 3. -/
def calc_external_amended (block : List (List Char)) : ℚ :=
  if has_external_method block then
    let s1 := external_step1_spec block
    if s1 ≠ 0 then s1
    else
      let s2 := external_step2_spec block
      if s2 ≠ 0 then s2
      else external_step3_spec block
  else 0

/-- Modelled from the words of the claim about marketplace classification
(claim-side definition, to be compared with `is_market_block`): the third
conjunct asks for a line containing a positive-signed currency token of the
specification's token grammar, which allows whitespace between the sign and
the glyph. -/
def isMarketplaceBlock_claimC2 (block : List (List Char)) : Bool :=
  (block.any (fun l => isSubstr kwMarket l)) &&
  (block.any (fun l => isSubstr kwFunds l)) &&
  (block.any (fun l => finditer_plus l ≠ []))

theorem split_blocks_go_join (ls : List (List Char)) :
    ∀ current, (split_blocks_go ls current).flatten = current ++ ls := by
  induction ls with
  | nil =>
    intro current
    by_cases h : current = [] <;> simp [split_blocks_go, h]
  | cons l ls ih =>
    intro current
    by_cases hd : is_date_line l
    · by_cases h : current = [] <;> simp [split_blocks_go, hd, h, ih]
    · by_cases h : current = [] <;> simp [split_blocks_go, hd, h, ih]

/-- C3: concatenating the lines of all blocks produced by the segmenter, in
block order, reproduces the original sequence of lines exactly. -/
theorem split_blocks_lossless (lines : List (List Char)) :
    (split_blocks lines).flatten = lines := by
  simpa using split_blocks_go_join lines []

theorem foldl_push_filterMap (f : List Char → Option ℚ) (l : List (List Char)) :
    ∀ acc : List ℚ,
      l.foldl (fun a g => match f g with | some v => a ++ [v] | none => a) acc
        = acc ++ l.filterMap f := by
  induction l with
  | nil => intro acc; simp
  | cons g l ih =>
    intro acc
    cases h : f g <;> simp [List.filterMap_cons, h, ih]

theorem extract_amounts_eq_filterMap (t : List Char) :
    extract_amounts t = (finditer_amt t).filterMap parse_amount := by
  simpa [extract_amounts] using foldl_push_filterMap parse_amount (finditer_amt t) []

theorem parse_amount_nonneg {g : List Char} {v : ℚ} (h : parse_amount g = some v) :
    0 ≤ v := by
  simp only [parse_amount] at h
  split at h
  · rw [Option.some_inj] at h
    subst h
    positivity
  · exact absurd h (Option.noConfusion)

theorem extract_amounts_nonneg {l : List Char} {q : ℚ} (h : q ∈ extract_amounts l) :
    0 ≤ q := by
  rw [extract_amounts_eq_filterMap] at h
  rcases List.mem_filterMap.1 h with ⟨g, _, hg⟩
  exact parse_amount_nonneg hg

theorem extract_amounts_sum_nonneg (l : List Char) : 0 ≤ (extract_amounts l).sum :=
  List.sum_nonneg (fun _ hq => extract_amounts_nonneg hq)

theorem pos_amounts_nonneg {l : List Char} {q : ℚ} (h : q ∈ pos_amounts l) : 0 ≤ q := by
  rcases List.mem_filterMap.1 h with ⟨g, _, hg⟩
  exact parse_amount_nonneg hg

theorem plus_fold_eq (gs : List (List Char)) :
    ∀ a : ℚ,
      gs.foldl (fun a g => match parse_amount g with | some v => a + v | none => a) a
        = a + (gs.filterMap parse_amount).sum := by
  induction gs with
  | nil => intro a; simp
  | cons g gs ih =>
    intro a
    cases h : parse_amount g <;> simp [List.filterMap_cons, h, ih, add_assoc]

theorem market_fold_eq (block : List (List Char)) :
    ∀ acc : ℚ,
      block.foldl
        (fun acc l =>
          (finditer_plus l).foldl
            (fun a g =>
              match parse_amount g with
              | some v => a + v
              | none => a) acc) acc
        = acc + ((block.map pos_amounts).flatten).sum := by
  induction block with
  | nil => intro acc; simp
  | cons l block ih =>
    intro acc
    simp only [List.foldl_cons, List.map_cons, List.flatten_cons, List.sum_append]
    rw [plus_fold_eq, ih, add_assoc]
    rfl

theorem market_income_of_eq (block : List (List Char)) :
    market_income_of block = ((block.map pos_amounts).flatten).sum := by
  simpa [market_income_of] using market_fold_eq block 0

theorem step1_fold_eq (block : List (List Char)) :
    ∀ acc : ℚ,
      block.foldl
        (fun acc l =>
          if line_has_kw l && isSubstr halfGlyphStr l then
            let amts := extract_amounts l
            if amts = [] then acc else acc + amts.sum
          else acc) acc
        = acc + external_step1_spec block := by
  induction block with
  | nil => intro acc; simp [external_step1_spec]
  | cons l block ih =>
    intro acc
    rw [List.foldl_cons, ih]
    by_cases hc : (line_has_kw l && isSubstr halfGlyphStr l) = true
    · by_cases he : extract_amounts l = []
      · simp [external_step1_spec, List.filter_cons, hc, he]
      · simp [external_step1_spec, List.filter_cons, hc, he, add_assoc]
    · simp [external_step1_spec, List.filter_cons, hc]

theorem external_step1_eq (block : List (List Char)) :
    external_step1 block = external_step1_spec block := by
  simpa [external_step1] using step1_fold_eq block 0

theorem step2_fold_eq (block : List (List Char)) :
    ∀ acc : ℚ,
      block.foldl
        (fun acc l =>
          if isSubstr halfGlyphStr l = false then acc
          else if balanceWords.any (fun w => isSubstr w l) then acc
          else if has_signed_adjacent l then acc
          else
            let amts := extract_amounts l
            if amts = [] then acc else acc + amts.sum) acc
        = acc + external_step2_spec block := by
  induction block with
  | nil => intro acc; simp [external_step2_spec]
  | cons l block ih =>
    intro acc
    rw [List.foldl_cons, ih]
    by_cases h1 : isSubstr halfGlyphStr l = false
    · have h1' : (isSubstr halfGlyphStr l &&
          !(balanceWords.any (fun w => isSubstr w l)) && !(has_signed_adjacent l)) = false := by
        simp [h1]
      simp [external_step2_spec, List.filter_cons, h1, h1']
    · have h1t : isSubstr halfGlyphStr l = true := by
        cases hv : isSubstr halfGlyphStr l
        · exact absurd hv h1
        · rfl
      by_cases h2 : balanceWords.any (fun w => isSubstr w l) = true
      · have hf : (isSubstr halfGlyphStr l &&
            !(balanceWords.any (fun w => isSubstr w l)) && !(has_signed_adjacent l)) = false := by
          simp [h2]
        simp [external_step2_spec, List.filter_cons, h1, h2, hf]
      · by_cases h3 : has_signed_adjacent l = true
        · have hf : (isSubstr halfGlyphStr l &&
              !(balanceWords.any (fun w => isSubstr w l)) && !(has_signed_adjacent l)) = false := by
            simp [h3]
          simp [external_step2_spec, List.filter_cons, h1, h2, h3, hf]
        · have ht : (isSubstr halfGlyphStr l &&
              !(balanceWords.any (fun w => isSubstr w l)) && !(has_signed_adjacent l)) = true := by
            simp [h1t, h2, h3]
          by_cases he : extract_amounts l = []
          · simp [external_step2_spec, List.filter_cons, h1, h2, h3, ht, he]
          · simp [external_step2_spec, List.filter_cons, h1, h2, h3, ht, he, add_assoc]

theorem external_step2_eq (block : List (List Char)) :
    external_step2 block = external_step2_spec block := by
  simpa [external_step2] using step2_fold_eq block 0

/-- The candidate first amounts considered by external step 3. -/
def step3_candidates (block : List (List Char)) : List ℚ :=
  (block.filter has_signed_adjacent).filterMap (fun l => (extract_amounts l).head?)

theorem step3_fold_candidates (block : List (List Char)) :
    ∀ b0 : Option ℚ,
      block.foldl
        (fun best l =>
          if has_signed_adjacent l = false then best
          else
            match extract_amounts l with
            | [] => best
            | first :: _ =>
              match best with
              | none => some first
              | some b => if first > b then some first else some b) b0
        = (step3_candidates block).foldl
            (fun best a =>
              match best with
              | none => some a
              | some b => if a > b then some a else some b) b0 := by
  induction block with
  | nil => intro b0; simp [step3_candidates]
  | cons l block ih =>
    intro b0
    rw [List.foldl_cons]
    by_cases hs : has_signed_adjacent l = false
    · rw [if_pos hs, ih]
      simp [step3_candidates, List.filter_cons, hs]
    · rw [if_neg hs]
      have hs' : has_signed_adjacent l = true := by
        cases hv : has_signed_adjacent l
        · exact absurd hv hs
        · rfl
      cases he : extract_amounts l with
      | nil =>
        rw [ih]
        simp [step3_candidates, List.filter_cons, hs', List.filterMap_cons, he]
      | cons first rest =>
        rw [ih]
        simp [step3_candidates, List.filter_cons, hs', List.filterMap_cons, he]

theorem optfold_max (cs : List ℚ) :
    ∀ x : ℚ,
      cs.foldl
        (fun best a =>
          match best with
          | none => some a
          | some b => if a > b then some a else some b) (some x)
        = some (cs.foldl max x) := by
  induction cs with
  | nil => intro x; simp
  | cons a cs ih =>
    intro x
    rw [List.foldl_cons, List.foldl_cons]
    have h2 : (match some x with
        | none => some a
        | some b => if a > b then some a else some b) = some (max x a) := by
      show (if a > x then some a else some x) = some (max x a)
      rcases le_or_lt a x with h | h
      · rw [if_neg (not_lt.2 h), max_eq_left h]
      · rw [if_pos h, max_eq_right (le_of_lt h)]
    rw [h2, ih]

theorem step3_best_eq (block : List (List Char)) :
    (match external_step3_best block with
     | none => (0 : ℚ)
     | some b => b) = external_step3_spec block := by
  unfold external_step3_best external_step3_spec
  rw [step3_fold_candidates]
  have hc : (block.filter has_signed_adjacent).filterMap
      (fun l => (extract_amounts l).head?) = step3_candidates block := rfl
  rw [hc]
  cases hcs : step3_candidates block with
  | nil => simp
  | cons c cs =>
    have hnn : 0 ≤ c := by
      have hmem : c ∈ step3_candidates block := by rw [hcs]; exact List.mem_cons_self c cs
      rcases List.mem_filterMap.1 hmem with ⟨l, _, hl⟩
      have : c ∈ extract_amounts l := by
        cases hx : extract_amounts l with
        | nil => rw [hx] at hl; exact absurd hl (by simp)
        | cons y ys =>
          rw [hx] at hl
          simp only [List.head?_cons, Option.some_inj] at hl
          subst hl
          exact List.mem_cons_self y ys
      exact extract_amounts_nonneg this
    rw [List.foldl_cons, List.foldl_cons, optfold_max, max_eq_right hnn]

theorem external_step1_spec_nonneg (block : List (List Char)) :
    0 ≤ external_step1_spec block := by
  apply List.sum_nonneg
  intro x hx
  rcases List.mem_map.1 hx with ⟨l, _, rfl⟩
  exact extract_amounts_sum_nonneg l

theorem external_step2_spec_nonneg (block : List (List Char)) :
    0 ≤ external_step2_spec block := by
  apply List.sum_nonneg
  intro x hx
  rcases List.mem_map.1 hx with ⟨l, _, rfl⟩
  exact extract_amounts_sum_nonneg l

theorem foldl_max_init_le (cs : List ℚ) : ∀ x : ℚ, x ≤ cs.foldl max x := by
  induction cs with
  | nil => intro x; simp
  | cons c cs ih =>
    intro x
    rw [List.foldl_cons]
    exact le_trans (le_max_left x c) (ih (max x c))

theorem external_step3_spec_nonneg (block : List (List Char)) :
    0 ≤ external_step3_spec block :=
  foldl_max_init_le _ 0

theorem calc_external_fst_eq (block : List (List Char)) :
    (calc_external_for_block block).1 = calc_external_amended block := by
  simp only [calc_external_for_block, calc_external_amended]
  by_cases hm : has_external_method block = true
  · rw [if_pos hm, if_pos hm, external_step1_eq, external_step2_eq]
    by_cases h1 : external_step1_spec block = 0
    · have h1' : ¬ external_step1_spec block ≠ 0 := fun hcon => hcon h1
      rw [if_pos h1, if_neg h1']
      by_cases h2 : external_step2_spec block = 0
      · have h2' : ¬ external_step2_spec block ≠ 0 := fun hcon => hcon h2
        rw [if_pos h2, if_neg h2']
        rw [h1, h2, ← step3_best_eq]
        cases external_step3_best block <;> simp
      · rw [if_neg h2, if_pos h2, h1, zero_add]
    · rw [if_neg h1, if_pos h1]
  · rw [if_neg hm, if_neg hm]

theorem calc_external_snd_eq (block : List (List Char)) :
    (calc_external_for_block block).2
      = if is_market_block block then ((block.map pos_amounts).flatten).sum else 0 := by
  simp only [calc_external_for_block]
  by_cases hm : is_market_block block = true
  · rw [if_pos hm, if_pos hm, market_income_of_eq]
  · rw [if_neg hm, if_neg hm]

theorem calc_external_fst_nonneg (block : List (List Char)) :
    0 ≤ (calc_external_for_block block).1 := by
  rw [calc_external_fst_eq]
  simp only [calc_external_amended]
  split_ifs
  · exact external_step1_spec_nonneg block
  · exact external_step2_spec_nonneg block
  · exact external_step3_spec_nonneg block
  · exact le_refl 0

theorem calc_external_snd_nonneg (block : List (List Char)) :
    0 ≤ (calc_external_for_block block).2 := by
  rw [calc_external_snd_eq]
  split_ifs
  · apply List.sum_nonneg
    intro q hq
    rcases List.mem_flatten.1 hq with ⟨qs, hqs, hql⟩
    rcases List.mem_map.1 hqs with ⟨l, _, rfl⟩
    exact pos_amounts_nonneg hql
  · exact le_refl 0

/-- C1 (amended): the external contribution of a block equals the
three-step fallback of the claim amended so that the glyph tests of steps 1
and 2 accept only the half-width glyph, and the signed-token tests of steps
2 and 3 are the literal sign-adjacent-to-glyph substring tests; blocks not
classified as external contribute zero. -/
theorem external_fallback_three_steps (block : List (List Char)) :
    (calc_external_for_block block).1 = calc_external_amended block :=
  calc_external_fst_eq block

/-- C1 counterexample: on the one-line external block `支付宝 ￥59.00`
(full-width glyph only), the fallback as worded in the claim — step 1
accepting either glyph — yields 59, but the program yields 0, because steps
1 and 2 test for the half-width glyph only. -/
theorem external_fallback_glyph_counterexample :
    has_external_method [("支付宝 ￥59.00").data] = true ∧
    calc_external_claimC1 [("支付宝 ￥59.00").data] = 59 ∧
    (calc_external_for_block [("支付宝 ￥59.00").data]).1 = 0 := by
  refine ⟨by decide, by decide, by decide⟩

/-- C5: the marketplace-income contribution of a block is the sum of all
positive-sign token magnitudes across its lines when the block is a
marketplace block and zero otherwise; on the spec's example block the
contributions are (externalSpend, marketplaceIncome) = (0, 128.00). -/
theorem marketplace_income_contribution :
    (∀ block : List (List Char),
      (calc_external_for_block block).2
        = if is_market_block block then ((block.map pos_amounts).flatten).sum else 0) ∧
    calc_external_for_block
        [("Steam 社区市场").data, ("资金").data, ("+¥128.00").data] = (0, 128) := by
  exact ⟨calc_external_snd_eq, by decide⟩

/-- C8: both per-block contributions are non-negative, hence the two
running totals are monotonically non-decreasing as each block is folded
in. -/
theorem contributions_nonneg_and_totals_monotone :
    (∀ b : List (List Char),
      0 ≤ (calc_external_for_block b).1 ∧ 0 ≤ (calc_external_for_block b).2) ∧
    (∀ (bs : List (List (List Char))) (b : List (List Char)),
      (aggregate_totals bs).1 ≤ (aggregate_totals (bs ++ [b])).1 ∧
      (aggregate_totals bs).2 ≤ (aggregate_totals (bs ++ [b])).2) := by
  constructor
  · exact fun b => ⟨calc_external_fst_nonneg b, calc_external_snd_nonneg b⟩
  · intro bs b
    have h : aggregate_totals (bs ++ [b])
        = ((aggregate_totals bs).1 + (calc_external_for_block b).1,
           (aggregate_totals bs).2 + (calc_external_for_block b).2) := by
      unfold aggregate_totals
      rw [List.foldl_append, List.foldl_cons, List.foldl_nil]
    rw [h]
    exact ⟨le_add_of_nonneg_right (calc_external_fst_nonneg b),
           le_add_of_nonneg_right (calc_external_snd_nonneg b)⟩

/-- C10: a block in which no line has a `+` sign immediately adjacent to a
currency glyph is never classified as a marketplace block and contributes
zero marketplace income, even though the income scan itself accepts
whitespace between the sign and the glyph (`+ ¥128.00` scans to 128). -/
theorem adjacency_classification_gap :
    (∀ block : List (List Char),
      (∀ l ∈ block, isSubstr plusHalf l = false ∧ isSubstr plusFull l = false) →
      is_market_block block = false ∧ (calc_external_for_block block).2 = 0) ∧
    pos_amounts (("+ ¥128.00").data) = [128] := by
  constructor
  · intro block h
    have hm : is_market_block block = false := by
      unfold is_market_block
      have hplus : block.any (fun l => isSubstr plusHalf l || isSubstr plusFull l) = false := by
        rw [List.any_eq_false]
        intro l hl
        rcases h l hl with ⟨h1, h2⟩
        simp [h1, h2]
      rw [hplus]
      simp
    refine ⟨hm, ?_⟩
    rw [calc_external_snd_eq, hm]
    simp
  · decide

theorem adjacency_classification_gap_witness :
    is_market_block [("Steam 社区市场 资金 + ¥128.00").data] = false ∧
    (calc_external_for_block [("Steam 社区市场 资金 + ¥128.00").data]).2 = 0 :=
  adjacency_classification_gap.1 [("Steam 社区市场 资金 + ¥128.00").data] (by decide)

/-- C2 (amended): a block is a marketplace block iff some line contains the
marketplace-trade marker, some line contains the funds marker, and some
line contains the literal two-character substring `+¥` or `+￥` (the `+`
sign immediately adjacent to a glyph), the three conditions possibly on
different lines. -/
theorem is_market_block_iff_amended (block : List (List Char)) :
    is_market_block block = true ↔
      ((∃ l ∈ block, isSubstr kwMarket l = true) ∧
       (∃ l ∈ block, isSubstr kwFunds l = true) ∧
       (∃ l ∈ block, isSubstr plusHalf l = true ∨ isSubstr plusFull l = true)) := by
  unfold is_market_block
  simp [List.any_eq_true, and_assoc]

/-- C2 counterexample: the one-line block `Steam 社区市场 资金 + ¥5.00`
contains the marker, the funds word and a positive-signed currency token of
the specification's token grammar (whitespace between sign and glyph), yet
the program does not classify it as a marketplace block. -/
theorem is_market_block_signed_token_counterexample :
    isMarketplaceBlock_claimC2 [("Steam 社区市场 资金 + ¥5.00").data] = true ∧
    is_market_block [("Steam 社区市场 资金 + ¥5.00").data] = false := by
  refine ⟨by decide, by decide⟩

/-- C4: the reported figures are costFromMarket = round2(0.9 * market),
directExternal = round2(external), totalCost = round2(directExternal +
costFromMarket) over the accumulated totals, and totals (100, 50) give a
total cost of 145.00. -/
theorem report_rounding_formula :
    (∀ lines : List (List Char),
      main_report lines
        = (quantize2 ((aggregate_totals (split_blocks lines)).2 * (9 / 10)),
           quantize2 (aggregate_totals (split_blocks lines)).1,
           quantize2 (quantize2 (aggregate_totals (split_blocks lines)).1 +
             quantize2 ((aggregate_totals (split_blocks lines)).2 * (9 / 10))))) ∧
    derive_report 100 50 = (45, 100, 145) := by
  exact ⟨fun lines => rfl, by decide⟩

theorem filterMap_eq_map_of_isSome (l : List (List Char))
    (h : ∀ g ∈ l, (parse_amount g).isSome) :
    l.filterMap parse_amount = l.map (fun g => (parse_amount g).getD 0) := by
  induction l with
  | nil => rfl
  | cons g gs ih =>
    have hg := h g (List.mem_cons_self g gs)
    cases hp : parse_amount g with
    | none => rw [hp] at hg; exact absurd hg (by simp)
    | some v =>
      rw [List.filterMap_cons, hp, List.map_cons, hp]
      rw [ih (fun x hx => h x (List.mem_cons_of_mem g hx))]
      rfl

/-- C6: the extractor returns one amount per parseable token, in
left-to-right token order, each the token's magnitude (the captured body
with commas removed); tokens whose body fails to parse are silently
skipped. -/
theorem extract_amounts_tokenwise (cs : List Char) :
    (extract_amounts cs = (finditer_amt cs).filterMap parse_amount) ∧
    ((∀ g ∈ finditer_amt cs, (parse_amount g).isSome) →
      extract_amounts cs = (finditer_amt cs).map (fun g => (parse_amount g).getD 0)) := by
  refine ⟨extract_amounts_eq_filterMap cs, fun h => ?_⟩
  rw [extract_amounts_eq_filterMap]
  exact filterMap_eq_map_of_isSome _ h

theorem extract_amounts_tokenwise_witness :
    (∀ g ∈ finditer_amt (("-¥ 31.37 ¥1,234.56").data), (parse_amount g).isSome) ∧
    extract_amounts (("-¥ 31.37 ¥1,234.56").data)
      = (finditer_amt (("-¥ 31.37 ¥1,234.56").data)).map
          (fun g => (parse_amount g).getD 0) :=
  ⟨by decide, (extract_amounts_tokenwise (("-¥ 31.37 ¥1,234.56").data)).2 (by decide)⟩

/-- C7: the balance detector returns the third extracted amount of the
first line (top to bottom) with at least three extractable amounts, `none`
when no line qualifies; on the spec's example line it returns 0.00. -/
theorem detect_balance_contract :
    (∀ lines : List (List Char),
      detect_current_wallet_balance lines
        = (lines.find? (fun l => decide (3 ≤ (extract_amounts l).length))).bind
            (fun l => (extract_amounts l)[2]?)) ∧
    detect_current_wallet_balance [("¥ 76.80\t-¥ 31.37\t¥ 0.00").data] = some 0 := by
  constructor
  · intro lines
    induction lines with
    | nil => rfl
    | cons l ls ih =>
      simp only [detect_current_wallet_balance]
      by_cases h : 3 ≤ (extract_amounts l).length
      · rw [if_pos h, List.find?_cons_of_pos _ (by simpa using h)]
        rfl
      · rw [if_neg h, List.find?_cons_of_neg _ (by simpa using h), ih]
  · decide

theorem dropWhile_dropWhile_self (p : Char → Bool) (l : List Char) :
    (l.dropWhile p).dropWhile p = l.dropWhile p := by
  induction l with
  | nil => rfl
  | cons c t ih =>
    by_cases h : p c = true
    · rw [List.dropWhile_cons_of_pos h, ih]
    · rw [List.dropWhile_cons_of_neg h, List.dropWhile_cons_of_neg h]

theorem lstrip_idem (l : List Char) : lstrip (lstrip l) = lstrip l :=
  dropWhile_dropWhile_self isPySpace l

theorem rstrip_idem (l : List Char) : rstrip (rstrip l) = rstrip l := by
  induction l with
  | nil => rfl
  | cons c t ih =>
    by_cases hr : rstrip t = []
    · by_cases hc : isPySpace c = true
      · simp [rstrip, hr, hc]
      · simp [rstrip, hr, hc]
    · simp [rstrip, hr, ih]

theorem rstrip_lstrip_comm (l : List Char) : rstrip (lstrip l) = lstrip (rstrip l) := by
  induction l with
  | nil => rfl
  | cons c t ih =>
    by_cases hc : isPySpace c = true
    · have hL : lstrip (c :: t) = lstrip t := by
        simp [lstrip, List.dropWhile_cons_of_pos hc]
      rw [hL, ih]
      by_cases hr : rstrip t = []
      · have hR : rstrip (c :: t) = [] := by simp [rstrip, hr, hc]
        rw [hR, hr]
      · have hR : rstrip (c :: t) = c :: rstrip t := by simp [rstrip, hr]
        rw [hR]
        simp [lstrip, List.dropWhile_cons_of_pos hc]
    · have hL : lstrip (c :: t) = c :: t := List.dropWhile_cons_of_neg hc
      rw [hL]
      by_cases hr : rstrip t = []
      · have hR : rstrip (c :: t) = [c] := by simp [rstrip, hr, hc]
        rw [hR]
        simp [lstrip, List.dropWhile_cons_of_neg hc]
      · have hR : rstrip (c :: t) = c :: rstrip t := by simp [rstrip, hr]
        rw [hR]
        simp [lstrip, List.dropWhile_cons_of_neg hc]

theorem strip_idem (l : List Char) : strip (strip l) = strip l := by
  unfold strip
  rw [rstrip_lstrip_comm, rstrip_idem, lstrip_idem]

theorem strip_rstrip (l : List Char) : strip (rstrip l) = strip l := by
  unfold strip
  rw [rstrip_idem]

theorem rstrip_strip (l : List Char) : rstrip (strip l) = strip l := by
  unfold strip
  rw [rstrip_lstrip_comm, rstrip_idem]

theorem lstrip_strip (l : List Char) : lstrip (strip l) = strip l := by
  unfold strip
  rw [lstrip_idem]

theorem rstrip_nil_of_rstripNl_nil (l : List Char) (h : rstripNl l = []) :
    rstrip l = [] := by
  induction l with
  | nil => rfl
  | cons c t ih =>
    by_cases hn : rstripNl t = []
    · by_cases hc : c = '\n'
      · have ht := ih hn
        simp [rstrip, ht, hc]
        decide
      · exfalso
        simp [rstripNl, hn, hc] at h
    · exfalso
      simp [rstripNl, hn] at h

theorem rstrip_rstripNl (l : List Char) : rstrip (rstripNl l) = rstrip l := by
  induction l with
  | nil => rfl
  | cons c t ih =>
    by_cases hn : rstripNl t = []
    · have ht : rstrip t = [] := rstrip_nil_of_rstripNl_nil t hn
      by_cases hc : c = '\n'
      · subst hc
        simp [rstripNl, hn, rstrip, ht, show isPySpace '\n' = true from by decide]
      · simp [rstripNl, hn, hc, rstrip, ht]
    · by_cases hrt : rstrip t = []
      · simp [rstripNl, hn, rstrip, ih, hrt]
      · simp [rstripNl, hn, rstrip, ih, hrt]

theorem strip_rstripNl (l : List Char) : strip (rstripNl l) = strip l := by
  unfold strip
  rw [rstrip_rstripNl]

theorem rstripNl_of_rstrip_fixed (l : List Char) (h : rstrip l = l) :
    rstripNl l = l := by
  induction l with
  | nil => rfl
  | cons c t ih =>
    by_cases hr : rstrip t = []
    · by_cases hc : isPySpace c = true
      · exfalso
        simp [rstrip, hr, hc] at h
      · have h2 : t = [] := by
          simp [rstrip, hr, hc] at h
          exact h
        have hcn : ¬ c = '\n' := by
          intro hcc
          rw [hcc] at hc
          exact hc (by decide)
        subst h2
        simp [rstripNl, hcn]
    · have h2 : rstrip t = t := by
        simp [rstrip, hr] at h
        exact h
      have ht := ih h2
      have htne : t ≠ [] := by
        intro hit
        rw [hit] at h2
        simp [rstrip] at h2
        exact hr (by rw [hit]; rfl)
      simp [rstripNl, ht, htne]

theorem rstrip_append_right (a b : List Char) (hb : rstrip b = b) (hne : b ≠ []) :
    rstrip (a ++ b) = a ++ b := by
  induction a with
  | nil => simpa using hb
  | cons c a' ih =>
    have hne2 : a' ++ b ≠ [] := by simp [hne]
    rw [List.cons_append]
    have hR : rstrip (c :: (a' ++ b)) = c :: rstrip (a' ++ b) := by
      simp [rstrip, ih, hne2]
    rw [hR, ih]

theorem length_dropWhile_le (p : Char → Bool) (l : List Char) :
    (l.dropWhile p).length ≤ l.length := by
  induction l with
  | nil => simp
  | cons c t ih =>
    by_cases h : p c = true
    · rw [List.dropWhile_cons_of_pos h]
      exact le_trans ih (Nat.le_succ _)
    · rw [List.dropWhile_cons_of_neg h]

theorem lstrip_fixed_head (c : Char) (t : List Char)
    (h : lstrip (c :: t) = c :: t) : isPySpace c = false := by
  by_contra hcon
  have hc : isPySpace c = true := by
    cases hv : isPySpace c
    · exact absurd hv hcon
    · rfl
  have h2 : lstrip (c :: t) = lstrip t := by
    simp [lstrip, List.dropWhile_cons_of_pos hc]
  rw [h2] at h
  have := length_dropWhile_le isPySpace t
  rw [show List.dropWhile isPySpace t = lstrip t from rfl, h] at this
  simp at this

theorem lstrip_append_left (a b : List Char) (ha : lstrip a = a) (hne : a ≠ []) :
    lstrip (a ++ b) = a ++ b := by
  cases a with
  | nil => exact absurd rfl hne
  | cons c a' =>
    have hc := lstrip_fixed_head c a' ha
    rw [List.cons_append]
    exact List.dropWhile_cons_of_neg (by rw [hc]; simp)

/-- The shape of every line the formatter outputs: empty, or right-stripped
with non-empty stripped content. -/
def OutNF (l : List Char) : Prop := l = [] ∨ (rstrip l = l ∧ strip l ≠ [])

theorem strip_ne_nil_of_fixed (l : List Char) (hl : lstrip l = l) (hr : rstrip l = l)
    (hne : l ≠ []) : strip l ≠ [] := by
  unfold strip
  rw [hr, hl]
  exact hne

theorem joinSep_ne_nil (sep p : List Char) (ps : List (List Char)) (hp : p ≠ []) :
    joinSep sep (p :: ps) ≠ [] := by
  cases ps with
  | nil => simpa [joinSep] using hp
  | cons q rest =>
    simp only [joinSep]
    intro hcon
    rcases List.append_eq_nil.1 hcon with ⟨h1, _⟩
    rcases List.append_eq_nil.1 h1 with ⟨h2, _⟩
    exact hp h2

theorem joinSep_rstrip (parts : List (List Char))
    (h : ∀ p ∈ parts, rstrip p = p ∧ p ≠ []) :
    rstrip (joinSep ((" | ").data) parts) = joinSep ((" | ").data) parts := by
  induction parts with
  | nil => rfl
  | cons p ps ih =>
    cases ps with
    | nil =>
      simp only [joinSep]
      exact (h p (List.mem_cons_self p [])).1
    | cons q rest =>
      have hq : q ≠ [] := (h q (List.mem_cons_of_mem p (List.mem_cons_self q rest))).2
      have hjoin : rstrip (joinSep ((" | ").data) (q :: rest))
          = joinSep ((" | ").data) (q :: rest) :=
        ih (fun x hx => h x (List.mem_cons_of_mem p hx))
      have hne : joinSep ((" | ").data) (q :: rest) ≠ [] := joinSep_ne_nil _ q rest hq
      simp only [joinSep]
      rw [List.append_assoc]
      apply rstrip_append_right
      · exact rstrip_append_right _ _ hjoin hne
      · simp
    
theorem joinSep_lstrip (parts : List (List Char))
    (h : ∀ p ∈ parts, lstrip p = p ∧ p ≠ []) :
    lstrip (joinSep ((" | ").data) parts) = joinSep ((" | ").data) parts := by
  cases parts with
  | nil => rfl
  | cons p ps =>
    have hp := h p (List.mem_cons_self p ps)
    cases ps with
    | nil => exact hp.1
    | cons q rest =>
      simp only [joinSep]
      rw [List.append_assoc]
      exact lstrip_append_left _ _ hp.1 hp.2

theorem prettify_line_nf (t : List Char) : OutNF (prettify_line t) := by
  simp only [prettify_line]
  by_cases h0 : strip t = []
  · rw [if_pos h0]
    exact Or.inl rfl
  · rw [if_neg h0]
    by_cases htab : t.contains '\t' = true
    · rw [if_pos htab]
      have hprop : ∀ p ∈ ((splitTabs t).map strip).filter (fun p => p ≠ []),
          rstrip p = p ∧ lstrip p = p ∧ p ≠ [] := by
        intro p hp
        rcases List.mem_filter.1 hp with ⟨hp1, hp2⟩
        rcases List.mem_map.1 hp1 with ⟨x, _, rfl⟩
        exact ⟨rstrip_strip x, lstrip_strip x, by simpa using hp2⟩
      cases hps : ((splitTabs t).map strip).filter (fun p => p ≠ []) with
      | nil =>
        exact Or.inl rfl
      | cons p ps =>
        rw [hps] at hprop
        right
        have hp := hprop p (List.mem_cons_self p ps)
        have hrs := joinSep_rstrip (p :: ps)
          (fun x hx => ⟨(hprop x hx).1, (hprop x hx).2.2⟩)
        have hls := joinSep_lstrip (p :: ps)
          (fun x hx => ⟨(hprop x hx).2.1, (hprop x hx).2.2⟩)
        exact ⟨hrs, strip_ne_nil_of_fixed _ hls hrs (joinSep_ne_nil _ p ps hp.2.2)⟩
    · rw [if_neg htab]
      by_cases hkw : keywords.contains (strip t) = true
      · rw [if_pos hkw]
        right
        have hr : rstrip (("- ").data ++ strip t) = ("- ").data ++ strip t :=
          rstrip_append_right _ _ (rstrip_strip t) h0
        have hl : lstrip (("- ").data ++ strip t) = ("- ").data ++ strip t :=
          lstrip_append_left _ _ (by decide) (by decide)
        exact ⟨hr, strip_ne_nil_of_fixed _ hl hr (by simp)⟩
      · rw [if_neg hkw]
        right
        refine ⟨rstrip_idem t, ?_⟩
        rw [strip_rstrip]
        exact h0

theorem format_go_mem_nf (ls : List (List Char)) :
    ∀ (w : Bool) (l : List Char), l ∈ format_go ls w → OutNF l := by
  induction ls with
  | nil =>
    intro w l h
    simp [format_go] at h
  | cons raw rest ih =>
    intro w l h
    simp only [format_go] at h
    by_cases hd : is_date_line (strip (rstripNl raw)) = true
    · rw [if_pos hd] at h
      by_cases hw : w = true
      · rw [if_pos hw] at h
        rcases List.mem_append.1 h with h | h
        · simp at h
          rcases h with h | h | h
          · exact Or.inl h
          · rw [h]
            exact Or.inr ⟨by decide, by decide⟩
          · exact Or.inl h
        · rcases List.mem_cons.1 h with h | h
          · rw [h]; exact prettify_line_nf _
          · exact ih true l h
      · rw [if_neg hw] at h
        rw [List.nil_append] at h
        rcases List.mem_cons.1 h with h | h
        · rw [h]; exact prettify_line_nf _
        · exact ih true l h
    · rw [if_neg hd] at h
      by_cases hs : strip (rstripNl raw) = []
      · rw [if_pos hs] at h
        rcases List.mem_cons.1 h with h | h
        · exact Or.inl h
        · exact ih w l h
      · rw [if_neg hs] at h
        rcases List.mem_cons.1 h with h | h
        · rw [h]; exact prettify_line_nf _
        · exact ih w l h

theorem format_go_second_pass (d : List (List Char)) :
    ∀ w : Bool,
    (∀ l ∈ d, OutNF l) →
    (∀ l ∈ d, l.contains '\t' = false) →
    (∀ l ∈ d, is_date_line l = false) →
    (∀ l ∈ d, keywords.contains (strip l) = false) →
    format_go d w = d := by
  induction d with
  | nil =>
    intro w _ _ _ _
    rfl
  | cons l rest ih =>
    intro w hnf h1 h2 h3
    have hmem := List.mem_cons_self l rest
    have hl := hnf l hmem
    have hrn : rstripNl l = l := by
      rcases hl with hnil | ⟨hr, _⟩
      · rw [hnil]; rfl
      · exact rstripNl_of_rstrip_fixed l hr
    have hid : is_date_line (strip l) = is_date_line l := by
      unfold is_date_line
      rw [strip_idem]
    have hrec : format_go rest w = rest :=
      ih w (fun x hx => hnf x (List.mem_cons_of_mem l hx))
        (fun x hx => h1 x (List.mem_cons_of_mem l hx))
        (fun x hx => h2 x (List.mem_cons_of_mem l hx))
        (fun x hx => h3 x (List.mem_cons_of_mem l hx))
    simp only [format_go]
    rw [hrn]
    rw [if_neg (by rw [hid, h2 l hmem]; exact Bool.false_ne_true)]
    by_cases hs : strip l = []
    · rw [if_pos hs, hrec]
      have hlnil : l = [] := by
        rcases hl with hnil | ⟨_, hsne⟩
        · exact hnil
        · exact absurd hs hsne
      rw [hlnil]
    · rw [if_neg hs, hrec]
      have hpre : prettify_line l = l := by
        rcases hl with hnil | ⟨hr, _⟩
        · exact absurd (by rw [hnil]; rfl) hs
        · simp only [prettify_line]
          rw [if_neg hs]
          rw [if_neg (by rw [h1 l hmem]; exact Bool.false_ne_true)]
          rw [if_neg (by rw [h3 l hmem]; exact Bool.false_ne_true)]
          exact hr
      rw [hpre]

/-- C9 (amended): re-running the formatter on an already-formatted document
with no raw tab characters, no date-marker lines, and no line whose
stripped content is exactly a category keyword, leaves the document
line-for-line unchanged. -/
theorem format_idempotent_amended (doc : List (List Char))
    (h1 : ∀ l ∈ format_lines doc, l.contains '\t' = false)
    (h2 : ∀ l ∈ format_lines doc, is_date_line l = false)
    (h3 : ∀ l ∈ format_lines doc, keywords.contains (strip l) = false) :
    format_lines (format_lines doc) = format_lines doc := by
  unfold format_lines at h1 h2 h3 ⊢
  exact format_go_second_pass _ false
    (fun l hl => format_go_mem_nf doc false l hl) h1 h2 h3

theorem format_idempotent_amended_witness :
    (∀ l ∈ format_lines [("  hello  ").data, ("").data, ("world").data],
      l.contains '\t' = false) ∧
    (∀ l ∈ format_lines [("  hello  ").data, ("").data, ("world").data],
      is_date_line l = false) ∧
    (∀ l ∈ format_lines [("  hello  ").data, ("").data, ("world").data],
      keywords.contains (strip l) = false) ∧
    format_lines (format_lines [("  hello  ").data, ("").data, ("world").data])
      = format_lines [("  hello  ").data, ("").data, ("world").data] :=
  ⟨by decide, by decide, by decide,
   format_idempotent_amended [("  hello  ").data, ("").data, ("world").data]
     (by decide) (by decide) (by decide)⟩

/-- C9 counterexample: the document consisting of the single line
`资金<tab>` formats to the bare keyword line `资金`, which contains no tab
and no date marker, yet a second formatter pass rewrites it to the list
item `- 资金`, so the formatter is not idempotent under the claim's
preconditions. -/
theorem format_idempotence_counterexample :
    format_lines [("资金\t").data] = [("资金").data] ∧
    (∀ l ∈ format_lines [("资金\t").data],
      l.contains '\t' = false ∧ is_date_line l = false) ∧
    format_lines (format_lines [("资金\t").data]) ≠ format_lines [("资金\t").data] := by
  refine ⟨by decide, by decide, by decide⟩

theorem matchGlyphBody_length {cs g rest : List Char}
    (h : matchGlyphBody cs = some (g, rest)) : rest.length < cs.length := by
  cases cs with
  | nil => exact absurd h (by simp [matchGlyphBody])
  | cons c t =>
    simp only [matchGlyphBody] at h
    by_cases hg : isGlyph c = true
    · rw [if_pos hg] at h
      by_cases he : (t.dropWhile isPySpace).takeWhile isBodyChar = []
      · rw [if_pos he] at h
        exact absurd h (by simp)
      · rw [if_neg he] at h
        have hr : rest = (t.dropWhile isPySpace).dropWhile isBodyChar := by
          have := Option.some_inj.1 h
          exact (congrArg Prod.snd this).symm
        rw [hr]
        calc ((t.dropWhile isPySpace).dropWhile isBodyChar).length
            ≤ (t.dropWhile isPySpace).length := length_dropWhile_le _ _
          _ ≤ t.length := length_dropWhile_le _ _
          _ < (c :: t).length := by simp [Nat.lt_succ_self]
    · rw [if_neg hg] at h
      exact absurd h (by simp)

theorem tryMatchAmtAt_length {cs g rest : List Char}
    (h : tryMatchAmtAt cs = some (g, rest)) : rest.length < cs.length := by
  cases cs with
  | nil => exact absurd h (by simp [tryMatchAmtAt])
  | cons c t =>
    simp only [tryMatchAmtAt] at h
    by_cases hs : (c = '+' || c = '-') = true
    · rw [if_pos hs] at h
      calc rest.length < (t.dropWhile isPySpace).length := matchGlyphBody_length h
        _ ≤ t.length := length_dropWhile_le _ _
        _ < (c :: t).length := by simp [Nat.lt_succ_self]
    · rw [if_neg hs] at h
      calc rest.length < ((c :: t).dropWhile isPySpace).length := matchGlyphBody_length h
        _ ≤ (c :: t).length := length_dropWhile_le _ _

theorem tryMatchPlusAt_length {cs g rest : List Char}
    (h : tryMatchPlusAt cs = some (g, rest)) : rest.length < cs.length := by
  cases cs with
  | nil => exact absurd h (by simp [tryMatchPlusAt])
  | cons c t =>
    simp only [tryMatchPlusAt] at h
    by_cases hs : c = '+'
    · rw [if_pos hs] at h
      calc rest.length < (t.dropWhile isPySpace).length := matchGlyphBody_length h
        _ ≤ t.length := length_dropWhile_le _ _
        _ < (c :: t).length := by simp [Nat.lt_succ_self]
    · rw [if_neg hs] at h
      exact absurd h (by simp)

theorem tryMatchSignedAt_length {cs g rest : List Char}
    (h : tryMatchSignedAt cs = some (g, rest)) : rest.length < cs.length := by
  cases cs with
  | nil => exact absurd h (by simp [tryMatchSignedAt])
  | cons c t =>
    simp only [tryMatchSignedAt] at h
    by_cases hs : (c = '+' || c = '-') = true
    · rw [if_pos hs] at h
      calc rest.length < (t.dropWhile isPySpace).length := matchGlyphBody_length h
        _ ≤ t.length := length_dropWhile_le _ _
        _ < (c :: t).length := by simp [Nat.lt_succ_self]
    · rw [if_neg hs] at h
      exact absurd h (by simp)

theorem scan_go_nil (m : List Char → Option (List Char × List Char))
    (hm : ∀ {cs g rest : List Char}, m cs = some (g, rest) → rest.length < cs.length) :
    ∀ f : Nat, scan_go m f [] = [] := by
  intro f
  cases f with
  | zero => rfl
  | succ b =>
    simp only [scan_go]
    cases hm0 : m [] with
    | none => rfl
    | some gr =>
      rcases gr with ⟨g, rest⟩
      exact absurd (hm hm0) (by simp)

theorem scan_go_fuel_irrel (m : List Char → Option (List Char × List Char))
    (hm : ∀ {cs g rest : List Char}, m cs = some (g, rest) → rest.length < cs.length) :
    ∀ (f1 f2 : Nat) (cs : List Char), cs.length ≤ f1 → cs.length ≤ f2 →
      scan_go m f1 cs = scan_go m f2 cs := by
  intro f1
  induction f1 with
  | zero =>
    intro f2 cs h1 h2
    have hcs : cs = [] := List.length_eq_zero.1 (Nat.le_zero.1 h1)
    subst hcs
    rw [scan_go_nil m (fun h => hm h), scan_go_nil m (fun h => hm h)]
  | succ a ih =>
    intro f2 cs h1 h2
    cases cs with
    | nil => rw [scan_go_nil m (fun h => hm h), scan_go_nil m (fun h => hm h)]
    | cons c t =>
      cases f2 with
      | zero => simp at h2
      | succ b =>
        simp only [scan_go]
        cases hm0 : m (c :: t) with
        | some gr =>
          rcases gr with ⟨g, rest⟩
          have hlt := hm hm0
          have ha : rest.length ≤ a := Nat.lt_succ_iff.1 (Nat.lt_of_lt_of_le hlt h1)
          have hb : rest.length ≤ b := Nat.lt_succ_iff.1 (Nat.lt_of_lt_of_le hlt h2)
          show g :: scan_go m a rest = g :: scan_go m b rest
          rw [ih b rest ha hb]
        | none =>
          have ha : t.length ≤ a := Nat.lt_succ_iff.1 (Nat.lt_of_lt_of_le (by simp) h1)
          have hb : t.length ≤ b := Nat.lt_succ_iff.1 (Nat.lt_of_lt_of_le (by simp) h2)
          show scan_go m a t = scan_go m b t
          exact ih b t ha hb

theorem finditer_amt_eq_step (cs : List Char) :
    finditer_amt cs
      = match tryMatchAmtAt cs with
        | some (g, rest) => g :: finditer_amt rest
        | none =>
          match cs with
          | [] => []
          | _ :: rest => finditer_amt rest := by
  unfold finditer_amt
  cases cs with
  | nil => rfl
  | cons c t =>
    simp only [List.length_cons, scan_go]
    cases hm0 : tryMatchAmtAt (c :: t) with
    | some gr =>
      rcases gr with ⟨g, rest⟩
      have hlt := tryMatchAmtAt_length hm0
      show g :: scan_go tryMatchAmtAt t.length rest
        = g :: scan_go tryMatchAmtAt rest.length rest
      rw [scan_go_fuel_irrel tryMatchAmtAt (fun h => tryMatchAmtAt_length h)
        t.length rest.length rest (Nat.lt_succ_iff.1 hlt) (le_refl _)]
    | none => rfl

theorem finditer_plus_eq_step (cs : List Char) :
    finditer_plus cs
      = match tryMatchPlusAt cs with
        | some (g, rest) => g :: finditer_plus rest
        | none =>
          match cs with
          | [] => []
          | _ :: rest => finditer_plus rest := by
  unfold finditer_plus
  cases cs with
  | nil => rfl
  | cons c t =>
    simp only [List.length_cons, scan_go]
    cases hm0 : tryMatchPlusAt (c :: t) with
    | some gr =>
      rcases gr with ⟨g, rest⟩
      have hlt := tryMatchPlusAt_length hm0
      show g :: scan_go tryMatchPlusAt t.length rest
        = g :: scan_go tryMatchPlusAt rest.length rest
      rw [scan_go_fuel_irrel tryMatchPlusAt (fun h => tryMatchPlusAt_length h)
        t.length rest.length rest (Nat.lt_succ_iff.1 hlt) (le_refl _)]
    | none => rfl

theorem finditer_signed_eq_step (cs : List Char) :
    finditer_signed cs
      = match tryMatchSignedAt cs with
        | some (g, rest) => g :: finditer_signed rest
        | none =>
          match cs with
          | [] => []
          | _ :: rest => finditer_signed rest := by
  unfold finditer_signed
  cases cs with
  | nil => rfl
  | cons c t =>
    simp only [List.length_cons, scan_go]
    cases hm0 : tryMatchSignedAt (c :: t) with
    | some gr =>
      rcases gr with ⟨g, rest⟩
      have hlt := tryMatchSignedAt_length hm0
      show g :: scan_go tryMatchSignedAt t.length rest
        = g :: scan_go tryMatchSignedAt rest.length rest
      rw [scan_go_fuel_irrel tryMatchSignedAt (fun h => tryMatchSignedAt_length h)
        t.length rest.length rest (Nat.lt_succ_iff.1 hlt) (le_refl _)]
    | none => rfl
